import Mathlib

/-!
Verification of the two utilities in this repository:
`data/merge_projects.py` (project-list merger) and
`data/update_json_v2.py` (GitHub repository stats updater).

The Python code is shallowly embedded: dictionaries keyed by project name
become association lists with Python's insertion-order semantics (assigning
to an existing key keeps its position, a fresh key is appended at the end),
Python `int` becomes `Int`, the remote API becomes an explicit list of
responses (one per loop iteration of `update_repo_stats`), real time becomes
an integer clock advanced by the recorded sleeps, and messages printed to
stderr become a list of log events.
-/

/-! ## Data model for merge_projects.py -/

/-- One project record: a JSON object with at least `name` and `stars_count`.
The `payload` field stands for all remaining fields, carried verbatim. -/
structure Project where
  name : String
  stars_count : Int
  payload : Nat
deriving DecidableEq, Repr

/-- One element of a top-level JSON array in an input file: either a valid
project entry (a mapping with `name` and `stars_count`) or an invalid entry
(not a mapping, or missing one of the required fields). -/
inductive RawEntry where
  | valid : Project → RawEntry
  | invalid : RawEntry
deriving DecidableEq, Repr

/-- The observable content of one input file path as `merge_projects` reads
it: unreadable (`IOError`), unparsable (`json.JSONDecodeError`), parsable but
not a top-level array, or a top-level array of entries. -/
inductive FileContent where
  | ioError : FileContent
  | invalidJson : FileContent
  | notArray : FileContent
  | array : List RawEntry → FileContent
deriving DecidableEq, Repr

/-- Lookup in the `merged_projects` dict (`name in merged_projects` /
`merged_projects[name]`). -/
def lookupProj : List (String × Project) → String → Option Project
  | [], _ => none
  | (k, v) :: rest, n => if k = n then some v else lookupProj rest n

/-- Assignment `merged_projects[name] = project` when `name` is already a
key: Python dicts keep the key at its original position. -/
def updateProj : List (String × Project) → String → Project → List (String × Project)
  | [], _, _ => []
  | (k, v) :: rest, n, p => if k = n then (k, p) :: rest else (k, v) :: updateProj rest n p

/-- The body of the per-project branch of `merge_projects`: keep the stored
entry unless the new one has a strictly greater `stars_count`; a fresh name
is appended at the end of the dict. -/
def addProject (m : List (String × Project)) (p : Project) : List (String × Project) :=
  match lookupProj m p.name with
  | some stored => if stored.stars_count < p.stars_count then updateProj m p.name p else m
  | none => m ++ [(p.name, p)]

/-- Processing of one element of a file's top-level array: invalid entries
are skipped with a warning, valid ones go through `addProject`. -/
def processEntry (m : List (String × Project)) (e : RawEntry) : List (String × Project) :=
  match e with
  | .invalid => m
  | .valid p => addProject m p

/-- Processing of one input file: unreadable, unparsable and non-array files
leave the dict unchanged; an array file is folded entry by entry. -/
def processFile (m : List (String × Project)) (f : FileContent) : List (String × Project) :=
  match f with
  | .ioError => m
  | .invalidJson => m
  | .notArray => m
  | .array es => es.foldl processEntry m

/-- `merge_projects`: fold all input files into the dict, then return
`list(merged_projects.values())`. -/
def merge_projects (files : List FileContent) : List Project :=
  (files.foldl processFile []).map Prod.snd

/-- The valid project entries one file contributes, in file order. -/
def fileValidEntries : FileContent → List Project
  | .array es => es.filterMap fun e => match e with | .valid p => some p | .invalid => none
  | _ => []

/-- All valid project entries of a run, in the order `merge_projects`
encounters them. -/
def validEntries : List FileContent → List Project
  | [] => []
  | f :: fs => fileValidEntries f ++ validEntries fs

/-- One stderr message of `merge_projects`. -/
inductive LogEvent where
  | couldNotOpen : LogEvent
  | invalidJsonError : LogEvent
  | notArrayError : LogEvent
  | invalidEntryWarning : LogEvent
deriving DecidableEq, Repr

/-- The stderr messages `merge_projects` emits for one input file. -/
def fileLog : FileContent → List LogEvent
  | .ioError => [.couldNotOpen]
  | .invalidJson => [.invalidJsonError]
  | .notArray => [.notArrayError]
  | .array es => es.filterMap fun e =>
      match e with | .invalid => some .invalidEntryWarning | .valid _ => none

/-- The stderr messages of a whole `merge_projects` run, in order. -/
def mergeLog : List FileContent → List LogEvent
  | [] => []
  | f :: fs => fileLog f ++ mergeLog fs

/-- Spec-side selection rule, modelled from the spec's words: among records
sharing a name, a strictly greater `stars_count` replaces the current choice
and an equal count keeps the first-seen record. -/
def specPickStep (o : Option Project) (p : Project) : Option Project :=
  match o with
  | none => some p
  | some a => if a.stars_count < p.stars_count then some p else some a

/-- Spec-side choice of the surviving record of one name group. -/
def specPick (ps : List Project) : Option Project :=
  ps.foldl specPickStep none

/-- Spec-side insertion-order step: append a name the first time it is seen. -/
def namesStep (acc : List String) (p : Project) : List String :=
  if p.name ∈ acc then acc else acc ++ [p.name]

/-- Spec-side output order, modelled from the spec's words: the names of the
valid entries, in order of first occurrence. -/
def firstNames (ps : List Project) : List String :=
  ps.foldl namesStep []

/-- The keys of the dict, in insertion order. -/
def keys (m : List (String × Project)) : List String :=
  m.map Prod.fst

/-- The dict invariant of `merge_projects`: every entry is stored under its
own `name`. -/
def wfMap (m : List (String × Project)) : Prop :=
  ∀ kv ∈ m, kv.1 = kv.2.name

/-- The dict `merge_projects` has built after all input files. -/
def mergeState (files : List FileContent) : List (String × Project) :=
  files.foldl processFile []

/-! ## Data model for update_json_v2.py -/

/-- The two fields of a repository record that `update_repo_stats` writes. -/
structure RepoData where
  stars_count : Int
  forks_count : Int
deriving DecidableEq, Repr

/-- The outcome of one iteration of the `while` loop of `update_repo_stats`:
a successful fetch (carrying the fetched star and fork counts), a
`RateLimitExceededException` (carrying the reset timestamp the handler reads
from `get_rate_limit`), a `GithubException` (carrying its HTTP status), or
any other exception. The auxiliary `get_rate_limit` logging call of the
success branch is assumed not to raise. -/
inductive ApiResponse where
  | success : Int → Int → ApiResponse
  | rateLimited : Int → ApiResponse
  | githubError : Nat → ApiResponse
  | unexpected : ApiResponse
deriving DecidableEq, Repr

/-- How `update_repo_stats` ends: `success` for `return True`, `failure` for
`return False`, `pending` when the response oracle is exhausted while the
loop would still make another API call. -/
inductive Outcome where
  | success : Outcome
  | failure : Outcome
  | pending : Outcome
deriving DecidableEq, Repr

/-- The observable behaviour of one `update_repo_stats` call: its outcome,
the repository record on return, all `time.sleep` durations in order, the
number of loop iterations that consumed an API response, and whether the
final `Failed to update … after … attempts` message was logged. -/
structure UpdateResult where
  outcome : Outcome
  repo : RepoData
  sleeps : List Int
  consumed : Nat
  exhaustedLog : Bool
deriving DecidableEq, Repr

/-- Prepend one consumed attempt that slept `w` seconds before looping. -/
def addAttempt (w : Int) (r : UpdateResult) : UpdateResult :=
  ⟨r.outcome, r.repo, w :: r.sleeps, r.consumed + 1, r.exhaustedLog⟩

/-- Prepend a run of consumed attempts with the given sleep durations. -/
def addAttempts (ws : List Int) (r : UpdateResult) : UpdateResult :=
  ⟨r.outcome, r.repo, ws ++ r.sleeps, ws.length + r.consumed, r.exhaustedLog⟩

/-- The `while retry_count < max_retries` loop of `update_repo_stats`, one
response per iteration. State: `retry_count` (`rc`), `backoff_time` (`bt`,
starts at 1 and is doubled before each backoff sleep), and the current clock
`now` (advanced by every sleep). A rate-limit iteration sleeps
`max(reset - now, 0) + 1` and loops without touching `rc` or `bt`; a 404
returns `False` at once; any other `GithubException` or unexpected exception
increments `rc`, doubles `bt` and sleeps the doubled value. -/
def updateLoop (mr : Nat) (repo : RepoData) :
    Nat → Int → Int → List ApiResponse → UpdateResult
  | rc, _, _, [] =>
    if rc < mr then ⟨.pending, repo, [], 0, false⟩ else ⟨.failure, repo, [], 0, true⟩
  | rc, bt, now, resp :: rest =>
    if rc < mr then
      match resp with
      | .success stars forks => ⟨.success, ⟨stars, forks⟩, [], 1, false⟩
      | .rateLimited reset =>
        addAttempt (max (reset - now) 0 + 1)
          (updateLoop mr repo rc bt (now + (max (reset - now) 0 + 1)) rest)
      | .githubError status =>
        if status = 404 then ⟨.failure, repo, [], 1, false⟩
        else addAttempt (bt * 2) (updateLoop mr repo (rc + 1) (bt * 2) (now + bt * 2) rest)
      | .unexpected =>
        addAttempt (bt * 2) (updateLoop mr repo (rc + 1) (bt * 2) (now + bt * 2) rest)
    else ⟨.failure, repo, [], 0, true⟩

/-- `update_repo_stats(g, repo_path, repo_data, max_retries)`: run the loop
from `retry_count = 0`, `backoff_time = 1` at clock `now`, against the given
response oracle. The Python default for `max_retries` is 5. -/
def update_repo_stats (repo : RepoData) (now : Int) (responses : List ApiResponse)
    (mr : Nat) : UpdateResult :=
  updateLoop mr repo 0 1 now responses

/-- A response the loop retries with backoff: a `GithubException` whose
status is not 404, or an unexpected exception. -/
def retryable : ApiResponse → Bool
  | .githubError status => status ≠ 404
  | .unexpected => true
  | .success _ _ => false
  | .rateLimited _ => false

/-- A rate-limit response. -/
def isRateLimited : ApiResponse → Bool
  | .rateLimited _ => true
  | _ => false

/-! ## Data model for the main loop of update_json_v2.py -/

/-- One element of a repository record's `links` array. -/
structure Link where
  url : String
deriving DecidableEq, Repr

/-- One repository record as the main loop reads it. `links = none` models a
record whose `links` field is missing or malformed, so that `repo['links']`
raises; the exception is caught by the per-repository handler. -/
structure RepoEntry where
  name : String
  links : Option (List Link)
  stars_count : Int
  forks_count : Int
deriving DecidableEq, Repr

/-- Python's substring test `pat in s`. -/
def containsSub (s pat : String) : Bool :=
  (s.splitOn pat).length ≠ 1

/-- `extract_repo_path`: strip the expected scheme-and-host part from a
GitHub URL, raising `ValueError` (`.error`) when the URL does not start with
it. -/
def extract_repo_path (github_url : String) : Except String String :=
  if github_url.startsWith "https://github.com/" then
    .ok (github_url.replace "https://github.com/" "")
  else
    .error ("Invalid GitHub URL: " ++ github_url)

/-- How the main loop's body ends for one repository record. -/
inductive EntryOutcome where
  | updated : EntryOutcome
  | noGithubUrl : EntryOutcome
  | exceptionLogged : EntryOutcome
  | updateFailed : EntryOutcome
deriving DecidableEq, Repr

/-- The body of `for index, repo in enumerate(data, 1)`: pick the first link
whose URL contains `github.com`, derive the repository path, call
`update_repo_stats` (with the default `max_retries = 5`) against this
record's response oracle, and write the fetched counts back on success. Any
exception (missing `links`, invalid GitHub URL) is caught by the
per-repository `except` handler and logged. -/
def processRepo (now : Int) (repo : RepoEntry) (oracle : List ApiResponse) :
    RepoEntry × EntryOutcome :=
  match repo.links with
  | none => (repo, .exceptionLogged)
  | some links =>
    match links.find? (fun l => containsSub l.url "github.com") with
    | none => (repo, .noGithubUrl)
    | some l =>
      match extract_repo_path l.url with
      | .error _ => (repo, .exceptionLogged)
      | .ok _ =>
        let res := update_repo_stats ⟨repo.stars_count, repo.forks_count⟩ now oracle 5
        match res.outcome with
        | .success =>
          (⟨repo.name, repo.links, res.repo.stars_count, res.repo.forks_count⟩, .updated)
        | _ => (repo, .updateFailed)

/-- One step of the main loop: append the processed record to the data that
will be written out, and bump `success_count` when the update succeeded. -/
def mainStep (now : Int) (acc : List RepoEntry × Nat)
    (item : RepoEntry × List ApiResponse) : List RepoEntry × Nat :=
  let r := processRepo now item.1 item.2
  (acc.1 ++ [r.1], acc.2 + (if r.2 = .updated then 1 else 0))

/-- The main loop of `update_json_v2.py`: process every repository record in
order and return the full data set that is written to the output path,
together with the final `success_count`. -/
def mainLoop (now : Int) (items : List (RepoEntry × List ApiResponse)) :
    List RepoEntry × Nat :=
  items.foldl (mainStep now) ([], 0)

/-- The condition under which the main loop's body raises for a record: the
`links` field is missing or malformed, or the first link containing
`github.com` does not start with the `https://github.com/` pattern that
`extract_repo_path` expects. -/
def entryRaises (repo : RepoEntry) : Bool :=
  match repo.links with
  | none => true
  | some links =>
    match links.find? (fun l => containsSub l.url "github.com") with
    | none => false
    | some l => !(l.url.startsWith "https://github.com/")

/-! ## Association-list lemmas for the merger dict -/

theorem lookupProj_append_of_none {n : String} :
    ∀ m : List (String × Project), lookupProj m n = none →
      ∀ l, lookupProj (m ++ l) n = lookupProj l n := by
  intro m
  induction m with
  | nil => intro _ l; rfl
  | cons kv rest ih =>
    intro h l
    obtain ⟨k, v⟩ := kv
    by_cases hk : k = n
    · simp [lookupProj, hk] at h
    · simp only [List.cons_append, lookupProj, if_neg hk] at h ⊢
      exact ih h l

theorem lookupProj_append_of_some {n : String} {a : Project} :
    ∀ m : List (String × Project), lookupProj m n = some a →
      ∀ l, lookupProj (m ++ l) n = some a := by
  intro m
  induction m with
  | nil => intro h; cases h
  | cons kv rest ih =>
    intro h l
    obtain ⟨k, v⟩ := kv
    by_cases hk : k = n
    · simp only [lookupProj, if_pos hk] at h
      simp only [List.cons_append, lookupProj, if_pos hk]
      exact h
    · simp only [List.cons_append, lookupProj, if_neg hk] at h ⊢
      exact ih h l

theorem lookupProj_updateProj_self {n : String} {a : Project} (p : Project) :
    ∀ m : List (String × Project), lookupProj m n = some a →
      lookupProj (updateProj m n p) n = some p := by
  intro m
  induction m with
  | nil => intro h; cases h
  | cons kv rest ih =>
    intro h
    obtain ⟨k, v⟩ := kv
    by_cases hk : k = n
    · simp [updateProj, lookupProj, hk]
    · simp only [lookupProj, if_neg hk] at h
      simp only [updateProj, if_neg hk, lookupProj, if_neg hk]
      exact ih h

theorem lookupProj_updateProj_ne {n n' : String} (p : Project) (h : n' ≠ n) :
    ∀ m : List (String × Project),
      lookupProj (updateProj m n p) n' = lookupProj m n' := by
  intro m
  induction m with
  | nil => rfl
  | cons kv rest ih =>
    obtain ⟨k, v⟩ := kv
    by_cases hk : k = n
    · subst hk
      simp only [updateProj, if_pos rfl, lookupProj, if_neg (Ne.symm h)]
    · simp only [updateProj, if_neg hk, lookupProj]
      by_cases hk' : k = n'
      · simp [hk']
      · simp only [if_neg hk']
        exact ih

theorem keys_updateProj (n : String) (p : Project) :
    ∀ m : List (String × Project), keys (updateProj m n p) = keys m := by
  intro m
  induction m with
  | nil => rfl
  | cons kv rest ih =>
    obtain ⟨k, v⟩ := kv
    by_cases hk : k = n
    · simp [updateProj, hk, keys]
    · simp only [updateProj, if_neg hk, keys, List.map_cons]
      simp only [keys] at ih
      rw [ih]

theorem lookupProj_eq_none_iff (n : String) :
    ∀ m : List (String × Project), lookupProj m n = none ↔ n ∉ keys m := by
  intro m
  induction m with
  | nil => simp [lookupProj, keys]
  | cons kv rest ih =>
    obtain ⟨k, v⟩ := kv
    by_cases hk : k = n
    · subst hk
      simp [lookupProj, keys]
    · rw [show keys ((k, v) :: rest) = k :: keys rest from rfl, List.mem_cons]
      simp only [lookupProj, if_neg hk]
      rw [ih]
      constructor
      · intro hh hor
        rcases hor with h1 | h1
        · exact hk h1.symm
        · exact hh h1
      · intro hh h1
        exact hh (Or.inr h1)

theorem addProject_eq_some {m : List (String × Project)} {p a : Project}
    (h : lookupProj m p.name = some a) :
    addProject m p = if a.stars_count < p.stars_count then updateProj m p.name p else m := by
  unfold addProject
  rw [h]

theorem addProject_eq_none {m : List (String × Project)} {p : Project}
    (h : lookupProj m p.name = none) :
    addProject m p = m ++ [(p.name, p)] := by
  unfold addProject
  rw [h]

theorem lookupProj_addProject_self (m : List (String × Project)) (p : Project) :
    lookupProj (addProject m p) p.name = specPickStep (lookupProj m p.name) p := by
  cases h : lookupProj m p.name with
  | none =>
    rw [addProject_eq_none h, lookupProj_append_of_none m h]
    simp [lookupProj, specPickStep]
  | some a =>
    rw [addProject_eq_some h]
    by_cases hlt : a.stars_count < p.stars_count
    · rw [if_pos hlt, lookupProj_updateProj_self p m h]
      simp [specPickStep, hlt]
    · rw [if_neg hlt, h]
      simp [specPickStep, hlt]

theorem lookupProj_addProject_ne (m : List (String × Project)) (p : Project) {n : String}
    (h : n ≠ p.name) : lookupProj (addProject m p) n = lookupProj m n := by
  cases hm : lookupProj m p.name with
  | none =>
    rw [addProject_eq_none hm]
    cases hn : lookupProj m n with
    | none =>
      rw [lookupProj_append_of_none m hn]
      simp [lookupProj, Ne.symm h]
    | some b => rw [lookupProj_append_of_some m hn]
  | some a =>
    rw [addProject_eq_some hm]
    by_cases hlt : a.stars_count < p.stars_count
    · rw [if_pos hlt, lookupProj_updateProj_ne p h]
    · rw [if_neg hlt]

theorem keys_addProject (m : List (String × Project)) (p : Project) :
    keys (addProject m p) = namesStep (keys m) p := by
  unfold namesStep
  cases h : lookupProj m p.name with
  | none =>
    have hnot : p.name ∉ keys m := (lookupProj_eq_none_iff _ _).mp h
    rw [addProject_eq_none h, if_neg hnot]
    simp [keys]
  | some a =>
    have hmem : p.name ∈ keys m := by
      by_contra hc
      rw [(lookupProj_eq_none_iff _ _).mpr hc] at h
      cases h
    rw [addProject_eq_some h, if_pos hmem]
    by_cases hlt : a.stars_count < p.stars_count
    · rw [if_pos hlt, keys_updateProj]
    · rw [if_neg hlt]

theorem wfMap_updateProj (p : Project) :
    ∀ m : List (String × Project), wfMap m → wfMap (updateProj m p.name p) := by
  intro m
  induction m with
  | nil => intro _ kv hkv; cases hkv
  | cons kv0 rest ih =>
    intro h
    obtain ⟨k, v⟩ := kv0
    by_cases hk : k = p.name
    · simp only [updateProj, if_pos hk]
      intro kv hkv
      rcases List.mem_cons.mp hkv with rfl | hm
      · exact hk
      · exact h kv (List.mem_cons_of_mem _ hm)
    · simp only [updateProj, if_neg hk]
      intro kv hkv
      rcases List.mem_cons.mp hkv with rfl | hm
      · exact h (k, v) (List.mem_cons_self _ _)
      · exact ih (fun x hx => h x (List.mem_cons_of_mem _ hx)) kv hm

theorem wfMap_addProject (m : List (String × Project)) (h : wfMap m) (p : Project) :
    wfMap (addProject m p) := by
  cases hl : lookupProj m p.name with
  | none =>
    rw [addProject_eq_none hl]
    intro kv hkv
    rcases List.mem_append.mp hkv with hm | hm
    · exact h kv hm
    · have : kv = (p.name, p) := List.mem_singleton.mp hm
      rw [this]
  | some a =>
    rw [addProject_eq_some hl]
    by_cases hlt : a.stars_count < p.stars_count
    · rw [if_pos hlt]; exact wfMap_updateProj p m h
    · rw [if_neg hlt]; exact h

theorem nodup_keys_addProject (m : List (String × Project)) (h : (keys m).Nodup)
    (p : Project) : (keys (addProject m p)).Nodup := by
  rw [keys_addProject]
  unfold namesStep
  by_cases hm : p.name ∈ keys m
  · rw [if_pos hm]; exact h
  · rw [if_neg hm]
    simp [List.nodup_append, h, hm]

/-! ## Fold-level lemmas for the merger -/

theorem foldl_addProject_lookup :
    ∀ (ps : List Project) (m : List (String × Project)) (n : String),
      lookupProj (ps.foldl addProject m) n =
        (ps.filter fun p => p.name == n).foldl specPickStep (lookupProj m n) := by
  intro ps
  induction ps with
  | nil => intro m n; rfl
  | cons p ps ih =>
    intro m n
    by_cases hn : p.name = n
    · rw [List.foldl_cons, ih, List.filter_cons]
      simp only [hn, beq_self_eq_true, if_pos]
      rw [List.foldl_cons]
      have : lookupProj (addProject m p) n = specPickStep (lookupProj m n) p := by
        rw [← hn, lookupProj_addProject_self]
      rw [this]
    · rw [List.foldl_cons, ih, List.filter_cons]
      have hb : (p.name == n) = false := by
        simp [hn]
      simp only [hb, Bool.false_eq_true, if_neg, ite_false]
      rw [lookupProj_addProject_ne m p (fun hh => hn hh.symm)]

theorem foldl_addProject_keys :
    ∀ (ps : List Project) (m : List (String × Project)),
      keys (ps.foldl addProject m) = ps.foldl namesStep (keys m) := by
  intro ps
  induction ps with
  | nil => intro m; rfl
  | cons p ps ih =>
    intro m
    rw [List.foldl_cons, List.foldl_cons, ih, keys_addProject]

theorem foldl_addProject_wf :
    ∀ (ps : List Project) (m : List (String × Project)),
      wfMap m → wfMap (ps.foldl addProject m) := by
  intro ps
  induction ps with
  | nil => intro m h; exact h
  | cons p ps ih =>
    intro m h
    rw [List.foldl_cons]
    exact ih _ (wfMap_addProject m h p)

theorem foldl_addProject_nodup :
    ∀ (ps : List Project) (m : List (String × Project)),
      (keys m).Nodup → (keys (ps.foldl addProject m)).Nodup := by
  intro ps
  induction ps with
  | nil => intro m h; exact h
  | cons p ps ih =>
    intro m h
    rw [List.foldl_cons]
    exact ih _ (nodup_keys_addProject m h p)

theorem processEntry_foldl_eq :
    ∀ (es : List RawEntry) (m : List (String × Project)),
      es.foldl processEntry m =
        (es.filterMap fun e =>
          match e with | .valid p => some p | .invalid => none).foldl addProject m := by
  intro es
  induction es with
  | nil => intro m; rfl
  | cons e es ih =>
    intro m
    cases e with
    | valid p =>
      simp only [List.foldl_cons, List.filterMap_cons, processEntry]
      exact ih (addProject m p)
    | invalid =>
      simp only [List.foldl_cons, List.filterMap_cons, processEntry]
      exact ih m

theorem processFile_eq (m : List (String × Project)) (f : FileContent) :
    processFile m f = (fileValidEntries f).foldl addProject m := by
  cases f with
  | array es => exact processEntry_foldl_eq es m
  | ioError => rfl
  | invalidJson => rfl
  | notArray => rfl

theorem foldl_processFile_eq :
    ∀ (files : List FileContent) (m : List (String × Project)),
      files.foldl processFile m = (validEntries files).foldl addProject m := by
  intro files
  induction files with
  | nil => intro m; rfl
  | cons f fs ih =>
    intro m
    rw [List.foldl_cons, ih, processFile_eq, validEntries, List.foldl_append]

theorem mergeState_eq (files : List FileContent) :
    mergeState files = (validEntries files).foldl addProject [] :=
  foldl_processFile_eq files []

theorem mergeState_wf (files : List FileContent) : wfMap (mergeState files) := by
  rw [mergeState_eq]
  exact foldl_addProject_wf _ [] (fun kv hkv => absurd hkv (List.not_mem_nil kv))

theorem mergeState_nodup (files : List FileContent) : (keys (mergeState files)).Nodup := by
  rw [mergeState_eq]
  exact foldl_addProject_nodup _ [] List.nodup_nil

theorem mergeState_lookup (files : List FileContent) (n : String) :
    lookupProj (mergeState files) n =
      ((validEntries files).filter fun p => p.name == n).foldl specPickStep none := by
  rw [mergeState_eq, foldl_addProject_lookup]
  rfl

theorem mergeState_keys (files : List FileContent) :
    keys (mergeState files) = firstNames (validEntries files) := by
  rw [mergeState_eq, foldl_addProject_keys]
  rfl

theorem map_snd_name_eq_keys :
    ∀ m : List (String × Project), wfMap m →
      (m.map Prod.snd).map Project.name = keys m := by
  intro m
  induction m with
  | nil => intro _; rfl
  | cons kv rest ih =>
    intro h
    obtain ⟨k, v⟩ := kv
    have hk : k = v.name := h (k, v) (List.mem_cons_self _ _)
    have ihr := ih (fun x hx => h x (List.mem_cons_of_mem _ hx))
    simp only [List.map_cons, keys] at ihr ⊢
    rw [hk, ihr]

theorem lookupProj_of_mem_nodup :
    ∀ m : List (String × Project), (keys m).Nodup → wfMap m →
      ∀ p : Project, p ∈ m.map Prod.snd → lookupProj m p.name = some p := by
  intro m
  induction m with
  | nil => intro _ _ p hp; cases hp
  | cons kv rest ih =>
    intro hnd hwf p hp
    obtain ⟨k, v⟩ := kv
    have hk : k = v.name := hwf (k, v) (List.mem_cons_self _ _)
    have hwfr : wfMap rest := fun x hx => hwf x (List.mem_cons_of_mem _ hx)
    simp only [List.map_cons, List.mem_cons] at hp
    have hnd' : (k :: keys rest).Nodup := hnd
    rcases hp with rfl | hp
    · simp [lookupProj, hk]
    · have hne : k ≠ p.name := by
        intro he
        have hmem : p.name ∈ keys rest := by
          rw [← map_snd_name_eq_keys rest hwfr]
          exact List.mem_map_of_mem Project.name hp
        rw [← he] at hmem
        exact (List.nodup_cons.mp hnd').1 hmem
      simp only [lookupProj, if_neg hne]
      exact ih (List.nodup_cons.mp hnd').2 hwfr p hp

theorem mem_map_snd_of_lookup :
    ∀ (m : List (String × Project)) (n : String) (p : Project),
      lookupProj m n = some p → p ∈ m.map Prod.snd := by
  intro m
  induction m with
  | nil => intro n p h; cases h
  | cons kv rest ih =>
    intro n p h
    obtain ⟨k, v⟩ := kv
    by_cases hk : k = n
    · simp only [lookupProj, if_pos hk] at h
      injection h with h
      simp [h]
    · simp only [lookupProj, if_neg hk] at h
      simp [ih n p h]

theorem name_of_lookup :
    ∀ m : List (String × Project), wfMap m →
      ∀ (n : String) (p : Project), lookupProj m n = some p → p.name = n := by
  intro m
  induction m with
  | nil => intro _ n p h; cases h
  | cons kv rest ih =>
    intro hwf n p h
    obtain ⟨k, v⟩ := kv
    by_cases hk : k = n
    · simp only [lookupProj, if_pos hk] at h
      injection h with h
      rw [← h, ← hk]
      exact (hwf (k, v) (List.mem_cons_self _ _)).symm
    · simp only [lookupProj, if_neg hk] at h
      exact ih (fun x hx => hwf x (List.mem_cons_of_mem _ hx)) n p h

/-! ## Lemmas about the spec-side selection rule -/

theorem specPickStep_isSome (o : Option Project) (p : Project) :
    ∃ c, specPickStep o p = some c := by
  cases o with
  | none => exact ⟨p, rfl⟩
  | some a =>
    by_cases h : a.stars_count < p.stars_count
    · exact ⟨p, by simp [specPickStep, h]⟩
    · exact ⟨a, by simp [specPickStep, h]⟩

theorem specPickStep_le {o : Option Project} {p c : Project}
    (h : specPickStep o p = some c) :
    p.stars_count ≤ c.stars_count ∧
      ∀ a, o = some a → a.stars_count ≤ c.stars_count := by
  cases o with
  | none =>
    simp only [specPickStep] at h
    injection h with h
    exact ⟨h ▸ le_refl _, fun a ha => by cases ha⟩
  | some a =>
    by_cases hlt : a.stars_count < p.stars_count
    · simp only [specPickStep, if_pos hlt] at h
      injection h with h
      refine ⟨h ▸ le_refl _, fun b hb => ?_⟩
      injection hb with hb
      rw [← hb, ← h]
      exact le_of_lt hlt
    · simp only [specPickStep, if_neg hlt] at h
      injection h with h
      refine ⟨h ▸ not_lt.mp hlt, fun b hb => ?_⟩
      injection hb with hb
      rw [← hb, h]

theorem specPick_go_max :
    ∀ (ps : List Project) (o : Option Project) (b : Project),
      ps.foldl specPickStep o = some b →
      (∀ a, o = some a → a.stars_count ≤ b.stars_count) ∧
        ∀ q ∈ ps, q.stars_count ≤ b.stars_count := by
  intro ps
  induction ps with
  | nil =>
    intro o b h
    refine ⟨fun a ha => ?_, fun q hq => absurd hq (List.not_mem_nil q)⟩
    rw [ha] at h
    injection h with h
    rw [h]
  | cons p ps ih =>
    intro o b h
    rw [List.foldl_cons] at h
    obtain ⟨c, hc⟩ := specPickStep_isSome o p
    rw [hc] at h
    obtain ⟨h1, h2⟩ := ih (some c) b h
    have hcb : c.stars_count ≤ b.stars_count := h1 c rfl
    obtain ⟨hp, ha⟩ := specPickStep_le hc
    refine ⟨fun a hao => le_trans (ha a hao) hcb, ?_⟩
    intro q hq
    rcases List.mem_cons.mp hq with rfl | hq
    · exact le_trans hp hcb
    · exact h2 q hq

theorem specPick_go_mem :
    ∀ (ps : List Project) (o : Option Project) (b : Project),
      ps.foldl specPickStep o = some b → o = some b ∨ b ∈ ps := by
  intro ps
  induction ps with
  | nil => intro o b h; exact Or.inl h
  | cons p ps ih =>
    intro o b h
    rw [List.foldl_cons] at h
    rcases ih _ b h with hh | hh
    · cases o with
      | none =>
        simp only [specPickStep] at hh
        injection hh with hh
        exact Or.inr (by simp [← hh])
      | some a =>
        by_cases hlt : a.stars_count < p.stars_count
        · simp only [specPickStep, if_pos hlt] at hh
          injection hh with hh
          exact Or.inr (by simp [← hh])
        · simp only [specPickStep, if_neg hlt] at hh
          injection hh with hh
          exact Or.inl (by rw [hh])
    · exact Or.inr (List.mem_cons_of_mem _ hh)

theorem specPick_go_some :
    ∀ (ps : List Project) (a : Project),
      ∃ b, ps.foldl specPickStep (some a) = some b := by
  intro ps
  induction ps with
  | nil => intro a; exact ⟨a, rfl⟩
  | cons p ps ih =>
    intro a
    rw [List.foldl_cons]
    obtain ⟨c, hc⟩ := specPickStep_isSome (some a) p
    rw [hc]
    exact ih c

theorem specPick_some_of_mem {ps : List Project} {p : Project} (h : p ∈ ps) :
    ∃ b, specPick ps = some b ∧ p.stars_count ≤ b.stars_count := by
  unfold specPick
  cases ps with
  | nil => cases h
  | cons q ps =>
    rw [List.foldl_cons]
    rw [show specPickStep none q = some q from rfl]
    obtain ⟨b, hb⟩ := specPick_go_some ps q
    refine ⟨b, hb, ?_⟩
    obtain ⟨h1, h2⟩ := specPick_go_max ps (some q) b hb
    rcases List.mem_cons.mp h with rfl | hm
    · exact h1 p rfl
    · exact h2 p hm

/-! ## Merger claims -/

/-- Claim C1: for every sequence of input files, `merge_projects` returns at
most one record per name (the output names are pairwise distinct); each
returned record is one of the valid input records, it is exactly the record
the spec's selection rule picks from its name group (maximum `stars_count`,
strictly-greater replaces, equal keeps the first-seen entry), so no input
record of the same name has a greater `stars_count`; and every name that
occurs among the valid input records is represented in the output. -/
theorem merge_unique_max_per_name (files : List FileContent) :
    ((merge_projects files).map Project.name).Nodup ∧
    (∀ p ∈ merge_projects files,
      p ∈ validEntries files ∧
      specPick ((validEntries files).filter fun q => q.name == p.name) = some p ∧
      ∀ q ∈ validEntries files, q.name = p.name → q.stars_count ≤ p.stars_count) ∧
    ∀ q ∈ validEntries files, ∃ p ∈ merge_projects files, p.name = q.name := by
  have hwf : wfMap (mergeState files) := mergeState_wf files
  have hnd : (keys (mergeState files)).Nodup := mergeState_nodup files
  have hout : merge_projects files = (mergeState files).map Prod.snd := rfl
  refine ⟨?_, ?_, ?_⟩
  · rw [hout, map_snd_name_eq_keys _ hwf]
    exact hnd
  · intro p hp
    rw [hout] at hp
    have hlk : lookupProj (mergeState files) p.name = some p :=
      lookupProj_of_mem_nodup _ hnd hwf p hp
    have hpick' :
        ((validEntries files).filter fun q => q.name == p.name).foldl specPickStep none =
          some p := by
      rw [← mergeState_lookup]
      exact hlk
    have hpick :
        specPick ((validEntries files).filter fun q => q.name == p.name) = some p := hpick'
    refine ⟨?_, hpick, ?_⟩
    · rcases specPick_go_mem _ none p hpick' with hh | hh
      · cases hh
      · exact List.mem_of_mem_filter hh
    · intro q hq hqn
      have hqf : q ∈ (validEntries files).filter fun r => r.name == p.name := by
        rw [List.mem_filter]
        exact ⟨hq, by simp [hqn]⟩
      exact (specPick_go_max _ none p hpick').2 q hqf
  · intro q hq
    have hqf : q ∈ (validEntries files).filter fun r => r.name == q.name := by
      rw [List.mem_filter]
      exact ⟨hq, by simp⟩
    obtain ⟨b, hb, _⟩ := specPick_some_of_mem hqf
    have hlk : lookupProj (mergeState files) q.name = some b := by
      rw [mergeState_lookup]
      exact hb
    refine ⟨b, ?_, ?_⟩
    · rw [hout]
      exact mem_map_snd_of_lookup _ _ _ hlk
    · exact name_of_lookup _ hwf _ _ hlk

theorem merge_unique_max_per_name_witness :
    Project.mk "a" 9 1 ∈
      validEntries [FileContent.array [RawEntry.valid ⟨"a", 5, 0⟩],
        FileContent.array [RawEntry.valid ⟨"a", 9, 1⟩]] ∧
    (Project.mk "a" 5 0).stars_count ≤ (Project.mk "a" 9 1).stars_count :=
  ⟨by decide,
    ((merge_unique_max_per_name [FileContent.array [RawEntry.valid ⟨"a", 5, 0⟩],
          FileContent.array [RawEntry.valid ⟨"a", 9, 1⟩]]).2.1 ⟨"a", 9, 1⟩
        (by decide)).2.2 ⟨"a", 5, 0⟩ (by decide) (by decide)⟩

theorem merge_foldl_noop :
    ∀ (e : List Project) (m : List (String × Project)),
      (∀ p ∈ e, ∃ a, lookupProj m p.name = some a ∧ ¬ a.stars_count < p.stars_count) →
      e.foldl addProject m = m := by
  intro e
  induction e with
  | nil => intro m _; rfl
  | cons p e ih =>
    intro m h
    obtain ⟨a, ha, hlt⟩ := h p (List.mem_cons_self _ _)
    have hstep : addProject m p = m := by
      rw [addProject_eq_some ha, if_neg hlt]
    rw [List.foldl_cons, hstep]
    exact ih m (fun q hq => h q (List.mem_cons_of_mem _ hq))

/-- Claim C2: for every input file, merging the same file twice yields the
same result as merging it once. A path given twice is read twice, but both
reads see the same file content, so one `FileContent` value models both. -/
theorem merge_idempotent_double_file (f : FileContent) :
    merge_projects [f, f] = merge_projects [f] := by
  have key : ∀ ps : List Project,
      ps.foldl addProject (ps.foldl addProject []) = ps.foldl addProject [] := by
    intro ps
    apply merge_foldl_noop
    intro p hp
    have hf : p ∈ ps.filter fun r => r.name == p.name := by
      rw [List.mem_filter]
      exact ⟨hp, by simp⟩
    obtain ⟨b, hb, hle⟩ := specPick_some_of_mem hf
    refine ⟨b, ?_, not_lt.mpr hle⟩
    rw [foldl_addProject_lookup]
    exact hb
  unfold merge_projects
  congr 1
  show [f, f].foldl processFile [] = [f].foldl processFile []
  rw [foldl_processFile_eq, foldl_processFile_eq]
  have hv2 : validEntries [f, f] = fileValidEntries f ++ (fileValidEntries f ++ []) := rfl
  have hv1 : validEntries [f] = fileValidEntries f ++ [] := rfl
  rw [hv2, hv1, List.append_nil, List.foldl_append]
  exact key (fileValidEntries f)

theorem merge_idempotent_double_file_witness :
    merge_projects [FileContent.array [RawEntry.valid ⟨"a", 5, 0⟩],
        FileContent.array [RawEntry.valid ⟨"a", 5, 0⟩]] =
      merge_projects [FileContent.array [RawEntry.valid ⟨"a", 5, 0⟩]] :=
  merge_idempotent_double_file _

/-- Claim C3: the output of `merge_projects` is ordered by the first
occurrence of each name across the valid input entries (a later replacement
with a higher `stars_count` keeps the position of the first occurrence), and
the result is not sorted: an input listing name `b` before name `a` keeps
that order in the output. -/
theorem merge_output_first_occurrence_order :
    (∀ files : List FileContent,
      (merge_projects files).map Project.name = firstNames (validEntries files)) ∧
    ∃ files : List FileContent,
      (merge_projects files).map Project.name = ["b", "a"] ∧
      (["b", "a"] : List String) ≠ ["a", "b"] := by
  constructor
  · intro files
    have hout : merge_projects files = (mergeState files).map Prod.snd := rfl
    rw [hout, map_snd_name_eq_keys _ (mergeState_wf files), mergeState_keys]
  · refine ⟨[FileContent.array [RawEntry.valid ⟨"b", 1, 0⟩,
      RawEntry.valid ⟨"a", 9, 0⟩, RawEntry.valid ⟨"b", 5, 1⟩]], ?_, ?_⟩
    · decide
    · decide

theorem merge_output_first_occurrence_order_witness :
    (merge_projects [FileContent.array [RawEntry.valid ⟨"b", 1, 0⟩]]).map Project.name =
      firstNames (validEntries [FileContent.array [RawEntry.valid ⟨"b", 1, 0⟩]]) :=
  merge_output_first_occurrence_order.1 _

theorem mergeLog_append (l1 l2 : List FileContent) :
    mergeLog (l1 ++ l2) = mergeLog l1 ++ mergeLog l2 := by
  induction l1 with
  | nil => rfl
  | cons f fs ih => simp [mergeLog, List.cons_append, ih, List.append_assoc]

/-- Claim C4: a file that is not valid JSON, or whose top-level value is not
an array, contributes nothing to the merged result (every remaining file is
processed exactly as if the bad file were absent), it produces exactly one
logged error, and the surrounding files' log messages are preserved. -/
theorem merge_skips_invalid_file (pre post : List FileContent) (b : FileContent)
    (hb : b = FileContent.invalidJson ∨ b = FileContent.notArray) :
    merge_projects (pre ++ b :: post) = merge_projects (pre ++ post) ∧
    mergeLog (pre ++ b :: post) = mergeLog pre ++ fileLog b ++ mergeLog post ∧
    ∃ e : LogEvent, fileLog b = [e] := by
  refine ⟨?_, ?_, ?_⟩
  · unfold merge_projects
    congr 1
    rw [List.foldl_append, List.foldl_append, List.foldl_cons]
    have hskip : processFile (pre.foldl processFile []) b = pre.foldl processFile [] := by
      rcases hb with rfl | rfl <;> rfl
    rw [hskip]
  · rw [mergeLog_append]
    show mergeLog pre ++ mergeLog (b :: post) = mergeLog pre ++ fileLog b ++ mergeLog post
    rw [show mergeLog (b :: post) = fileLog b ++ mergeLog post from rfl, List.append_assoc]
  · rcases hb with rfl | rfl
    · exact ⟨.invalidJsonError, rfl⟩
    · exact ⟨.notArrayError, rfl⟩

theorem merge_skips_invalid_file_witness :
    merge_projects ([] ++ FileContent.invalidJson ::
        [FileContent.array [RawEntry.valid ⟨"a", 5, 0⟩]]) =
      merge_projects ([] ++ [FileContent.array [RawEntry.valid ⟨"a", 5, 0⟩]]) ∧
    mergeLog ([] ++ FileContent.invalidJson ::
        [FileContent.array [RawEntry.valid ⟨"a", 5, 0⟩]]) =
      mergeLog [] ++ fileLog FileContent.invalidJson ++
        mergeLog [FileContent.array [RawEntry.valid ⟨"a", 5, 0⟩]] ∧
    ∃ e : LogEvent, fileLog FileContent.invalidJson = [e] :=
  merge_skips_invalid_file [] [FileContent.array [RawEntry.valid ⟨"a", 5, 0⟩]]
    FileContent.invalidJson (Or.inl rfl)

/-! ## Unfolding lemmas for the update loop -/

theorem addAttempt_outcome (w : Int) (r : UpdateResult) :
    (addAttempt w r).outcome = r.outcome := rfl

theorem addAttempt_repo (w : Int) (r : UpdateResult) :
    (addAttempt w r).repo = r.repo := rfl

theorem addAttempt_sleeps (w : Int) (r : UpdateResult) :
    (addAttempt w r).sleeps = w :: r.sleeps := rfl

theorem addAttempt_consumed (w : Int) (r : UpdateResult) :
    (addAttempt w r).consumed = r.consumed + 1 := rfl

theorem addAttempt_exhaustedLog (w : Int) (r : UpdateResult) :
    (addAttempt w r).exhaustedLog = r.exhaustedLog := rfl

theorem addAttempts_nil (r : UpdateResult) : addAttempts [] r = r := by
  cases r
  simp [addAttempts]

theorem addAttempts_cons (w : Int) (ws : List Int) (r : UpdateResult) :
    addAttempts (w :: ws) r = addAttempt w (addAttempts ws r) := by
  cases r
  simp [addAttempts, addAttempt]
  omega

theorem updateLoop_nil_lt {mr : Nat} (repo : RepoData) {rc : Nat} (bt now : Int)
    (h : rc < mr) : updateLoop mr repo rc bt now [] = ⟨.pending, repo, [], 0, false⟩ := by
  simp [updateLoop, h]

theorem updateLoop_nil_ge {mr : Nat} (repo : RepoData) {rc : Nat} (bt now : Int)
    (h : ¬ rc < mr) : updateLoop mr repo rc bt now [] = ⟨.failure, repo, [], 0, true⟩ := by
  simp [updateLoop, h]

theorem updateLoop_stop {mr : Nat} (repo : RepoData) {rc : Nat} (bt now : Int)
    (resp : ApiResponse) (rest : List ApiResponse) (h : ¬ rc < mr) :
    updateLoop mr repo rc bt now (resp :: rest) = ⟨.failure, repo, [], 0, true⟩ := by
  simp [updateLoop, h]

theorem updateLoop_ge {mr : Nat} (repo : RepoData) {rc : Nat} (bt now : Int)
    (h : ¬ rc < mr) :
    ∀ rs : List ApiResponse, updateLoop mr repo rc bt now rs = ⟨.failure, repo, [], 0, true⟩
  | [] => updateLoop_nil_ge repo bt now h
  | r :: rs => updateLoop_stop repo bt now r rs h

theorem updateLoop_success {mr : Nat} (repo : RepoData) {rc : Nat} (bt now s f : Int)
    (rest : List ApiResponse) (h : rc < mr) :
    updateLoop mr repo rc bt now (.success s f :: rest) = ⟨.success, ⟨s, f⟩, [], 1, false⟩ := by
  simp [updateLoop, h]

theorem updateLoop_rateLimited {mr : Nat} (repo : RepoData) {rc : Nat} (bt now reset : Int)
    (rest : List ApiResponse) (h : rc < mr) :
    updateLoop mr repo rc bt now (.rateLimited reset :: rest) =
      addAttempt (max (reset - now) 0 + 1)
        (updateLoop mr repo rc bt (now + (max (reset - now) 0 + 1)) rest) := by
  simp [updateLoop, h]

theorem updateLoop_notFound {mr : Nat} (repo : RepoData) {rc : Nat} (bt now : Int)
    (rest : List ApiResponse) (h : rc < mr) :
    updateLoop mr repo rc bt now (.githubError 404 :: rest) =
      ⟨.failure, repo, [], 1, false⟩ := by
  simp [updateLoop, h]

theorem updateLoop_githubError {mr : Nat} (repo : RepoData) {rc : Nat} (bt now : Int)
    (rest : List ApiResponse) {status : Nat} (h : rc < mr) (hs : status ≠ 404) :
    updateLoop mr repo rc bt now (.githubError status :: rest) =
      addAttempt (bt * 2) (updateLoop mr repo (rc + 1) (bt * 2) (now + bt * 2) rest) := by
  simp [updateLoop, h, hs]

theorem updateLoop_unexpected {mr : Nat} (repo : RepoData) {rc : Nat} (bt now : Int)
    (rest : List ApiResponse) (h : rc < mr) :
    updateLoop mr repo rc bt now (.unexpected :: rest) =
      addAttempt (bt * 2) (updateLoop mr repo (rc + 1) (bt * 2) (now + bt * 2) rest) := by
  simp [updateLoop, h]

theorem sleeps_shift (bt : Int) (n : Nat) :
    bt * 2 :: ((List.range n).map fun i => bt * 2 * 2 ^ (i + 1)) =
      (List.range (n + 1)).map fun i => bt * 2 ^ (i + 1) := by
  rw [List.range_succ_eq_map, List.map_cons, List.map_map]
  refine congrArg₂ List.cons ?_ ?_
  · norm_num
  · apply List.map_congr_left
    intro i _
    show bt * 2 * 2 ^ (i + 1) = bt * 2 ^ (Nat.succ i + 1)
    simp only [Nat.succ_eq_add_one]
    ring

theorem updateLoop_retryable_run (mr : Nat) (repo : RepoData) :
    ∀ errs : List ApiResponse, (∀ r ∈ errs, retryable r = true) →
    ∀ (rc : Nat) (bt now : Int) (rest : List ApiResponse), rc + errs.length ≤ mr →
    ∃ now2 : Int, updateLoop mr repo rc bt now (errs ++ rest) =
      addAttempts ((List.range errs.length).map fun i => bt * 2 ^ (i + 1))
        (updateLoop mr repo (rc + errs.length) (bt * 2 ^ errs.length) now2 rest) := by
  intro errs
  induction errs with
  | nil =>
    intro _ rc bt now rest _
    refine ⟨now, ?_⟩
    simp only [List.length_nil, List.range_zero, List.map_nil, addAttempts_nil,
      List.nil_append]
    rw [Nat.add_zero, pow_zero, mul_one]
  | cons e errs ih =>
    intro hall rc bt now rest hle
    have he : retryable e = true := hall e (List.mem_cons_self _ _)
    have hall' : ∀ r ∈ errs, retryable r = true :=
      fun r hr => hall r (List.mem_cons_of_mem _ hr)
    have hrc : rc < mr := by
      simp only [List.length_cons] at hle
      omega
    have hle' : (rc + 1) + errs.length ≤ mr := by
      simp only [List.length_cons] at hle
      omega
    obtain ⟨now2, h2⟩ := ih hall' (rc + 1) (bt * 2) (now + bt * 2) rest hle'
    refine ⟨now2, ?_⟩
    have hstep : updateLoop mr repo rc bt now ((e :: errs) ++ rest) =
        addAttempt (bt * 2)
          (updateLoop mr repo (rc + 1) (bt * 2) (now + bt * 2) (errs ++ rest)) := by
      cases e with
      | githubError status =>
        have hs : status ≠ 404 := by
          intro hcon
          rw [hcon] at he
          simp [retryable] at he
        exact updateLoop_githubError repo bt now (errs ++ rest) hrc hs
      | unexpected => exact updateLoop_unexpected repo bt now (errs ++ rest) hrc
      | success s f => simp [retryable] at he
      | rateLimited t => simp [retryable] at he
    rw [List.cons_append, ← List.cons_append] at hstep
    rw [hstep, h2, ← addAttempts_cons]
    simp only [List.length_cons]
    rw [sleeps_shift]
    have harg1 : rc + 1 + errs.length = rc + (errs.length + 1) := by omega
    have harg2 : bt * 2 * 2 ^ errs.length = bt * 2 ^ (errs.length + 1) := by ring
    rw [harg1, harg2]

/-! ## Updater claims: 404 abort and retry exhaustion -/

/-- Claim C5: when the fetch raises a `GithubException` with status 404
(after any run of retryable errors within the attempt budget, which is the
only way the loop can reach it), `update_repo_stats` returns a failure
immediately: exactly one more response is consumed (no response after the
404 is ever looked at), the stored `stars_count` and `forks_count` are
unchanged, and the exhaustion message is not the one logged. -/
theorem update_404_aborts (mr : Nat) (repo : RepoData) (now : Int)
    (pre rest : List ApiResponse) (hpre : ∀ r ∈ pre, retryable r = true)
    (hlen : pre.length < mr) :
    update_repo_stats repo now (pre ++ ApiResponse.githubError 404 :: rest) mr =
      ⟨.failure, repo, (List.range pre.length).map fun i => 2 ^ (i + 1),
        pre.length + 1, false⟩ := by
  unfold update_repo_stats
  obtain ⟨now2, h⟩ := updateLoop_retryable_run mr repo pre hpre 0 1 now
    (ApiResponse.githubError 404 :: rest) (by omega)
  rw [h, updateLoop_notFound repo _ _ rest (show 0 + pre.length < mr by omega)]
  simp [addAttempts]

theorem update_404_aborts_witness :
    update_repo_stats ⟨7, 8⟩ 0
        ([ApiResponse.unexpected] ++ ApiResponse.githubError 404 ::
          [ApiResponse.success 1 2]) 5 =
      ⟨.failure, ⟨7, 8⟩,
        (List.range [ApiResponse.unexpected].length).map fun i => 2 ^ (i + 1),
        [ApiResponse.unexpected].length + 1, false⟩ :=
  update_404_aborts 5 ⟨7, 8⟩ 0 [ApiResponse.unexpected] [ApiResponse.success 1 2]
    (by decide) (by decide)

/-- Claim C6: when every response is a retryable error and the oracle is
long enough, `update_repo_stats` consumes exactly `max_retries` responses,
logs the final failure message, returns a failure result, and leaves the
repository's `stars_count` and `forks_count` exactly as they were on
entry. -/
theorem update_exhausts_retries (mr : Nat) (repo : RepoData) (now : Int)
    (responses : List ApiResponse) (hall : ∀ r ∈ responses, retryable r = true)
    (hlen : mr ≤ responses.length) :
    update_repo_stats repo now responses mr =
      ⟨.failure, repo, (List.range mr).map (fun i => 2 ^ (i + 1)), mr, true⟩ := by
  unfold update_repo_stats
  have htk : (responses.take mr).length = mr := by
    rw [List.length_take]
    omega
  have hpre : ∀ r ∈ responses.take mr, retryable r = true :=
    fun r hr => hall r (List.mem_of_mem_take hr)
  obtain ⟨now2, h⟩ := updateLoop_retryable_run mr repo (responses.take mr) hpre 0 1 now
    (responses.drop mr) (by omega)
  rw [htk] at h
  conv_lhs => rw [← List.take_append_drop mr responses]
  rw [h, updateLoop_ge repo _ _ (by omega)]
  simp [addAttempts]

theorem update_exhausts_retries_witness :
    update_repo_stats ⟨7, 8⟩ 0 [ApiResponse.unexpected, ApiResponse.githubError 500] 2 =
      ⟨.failure, ⟨7, 8⟩, (List.range 2).map (fun i => 2 ^ (i + 1)), 2, true⟩ :=
  update_exhausts_retries 2 ⟨7, 8⟩ 0 [ApiResponse.unexpected, ApiResponse.githubError 500]
    (by decide) (by decide)

/-! ## Updater claims: rate-limit wait and backoff doubling -/

/-- Claim C7 counterexample: with the rate-limit reset timestamp in the past
(reset 0 while the clock reads 100) the code sleeps
`max(0 - 100, 0) + 1 = 1` second, not `(0 - 100) + 1 = -99` seconds as the
claim's un-clamped formula demands. -/
theorem update_ratelimit_wait_counterexample :
    (update_repo_stats ⟨10, 20⟩ 100
        [ApiResponse.rateLimited 0, ApiResponse.success 3 4] 5).sleeps = [1] ∧
      ((1 : Int) ≠ (0 - 100) + 1) := by
  constructor
  · decide
  · decide

/-- Claim C7 amended: on a rate-limit response the loop sleeps
`max(reset - now, 0) + 1` seconds (the code clamps a negative remaining time
to zero before adding the one extra second; when the reset lies in the
future this equals `(reset - now) + 1`) and then retries without
incrementing the attempt counter or the backoff timer; consequently a
response sequence consisting only of rate-limit responses can never produce
a failure result nor log retry exhaustion. -/
theorem update_ratelimit_waits_and_retries :
    (∀ (mr : Nat) (repo : RepoData) (rc : Nat) (bt now reset : Int)
        (rest : List ApiResponse), rc < mr →
      updateLoop mr repo rc bt now (ApiResponse.rateLimited reset :: rest) =
        addAttempt (max (reset - now) 0 + 1)
          (updateLoop mr repo rc bt (now + (max (reset - now) 0 + 1)) rest)) ∧
    ∀ (mr : Nat) (repo : RepoData) (rc : Nat) (bt now : Int)
        (rs : List ApiResponse), (∀ r ∈ rs, isRateLimited r = true) → rc < mr →
      (updateLoop mr repo rc bt now rs).outcome ≠ Outcome.failure ∧
      (updateLoop mr repo rc bt now rs).exhaustedLog = false := by
  constructor
  · intro mr repo rc bt now reset rest h
    exact updateLoop_rateLimited repo bt now reset rest h
  · intro mr repo rc bt now rs
    induction rs generalizing now with
    | nil =>
      intro _ h
      rw [updateLoop_nil_lt repo bt now h]
      exact ⟨by simp, rfl⟩
    | cons r rs ih =>
      intro hall h
      have hr := hall r (List.mem_cons_self _ _)
      cases r with
      | rateLimited reset =>
        rw [updateLoop_rateLimited repo bt now reset rs h]
        obtain ⟨h1, h2⟩ := ih _ (fun x hx => hall x (List.mem_cons_of_mem _ hx)) h
        exact ⟨by simpa [addAttempt_outcome] using h1, by
          simpa [addAttempt_exhaustedLog] using h2⟩
      | success s f => simp [isRateLimited] at hr
      | githubError s => simp [isRateLimited] at hr
      | unexpected => simp [isRateLimited] at hr

theorem update_ratelimit_waits_and_retries_witness :
    updateLoop 5 ⟨1, 2⟩ 0 1 100 [ApiResponse.rateLimited 0] =
      addAttempt (max ((0 : Int) - 100) 0 + 1)
        (updateLoop 5 ⟨1, 2⟩ 0 1 (100 + (max ((0 : Int) - 100) 0 + 1)) []) ∧
    (updateLoop 5 ⟨1, 2⟩ 0 1 100 [ApiResponse.rateLimited 0]).outcome ≠ Outcome.failure :=
  ⟨update_ratelimit_waits_and_retries.1 5 ⟨1, 2⟩ 0 1 100 0 [] (by decide),
    (update_ratelimit_waits_and_retries.2 5 ⟨1, 2⟩ 0 1 100 [ApiResponse.rateLimited 0]
      (by decide) (by decide)).1⟩

/-- Claim C8 counterexample: the code doubles the backoff timer BEFORE
sleeping (`backoff_time *= 2` precedes `time.sleep(backoff_time)`), so the
sleep before the first backoff retry is 2 seconds, not 1 second as the
claim states. -/
theorem update_backoff_first_sleep_counterexample :
    (update_repo_stats ⟨0, 0⟩ 0
        [ApiResponse.githubError 500, ApiResponse.success 3 4] 5).sleeps = [2] ∧
      ((2 : Int) ≠ 1) := by
  constructor
  · decide
  · decide

/-- Claim C8 amended: each API error other than rate-limit and 404, and each
unexpected error, increments the attempt counter, doubles the backoff timer
and only then sleeps for the doubled timer; with the initial backoff of
1 second the sleep before the first such retry is therefore 2 seconds and
each subsequent one is twice the previous: 2, 4, 8, ... seconds. -/
theorem update_backoff_doubles_before_sleep :
    (∀ (mr : Nat) (repo : RepoData) (rc : Nat) (bt now : Int) (status : Nat)
        (rest : List ApiResponse), rc < mr → status ≠ 404 →
      updateLoop mr repo rc bt now (ApiResponse.githubError status :: rest) =
        addAttempt (bt * 2) (updateLoop mr repo (rc + 1) (bt * 2) (now + bt * 2) rest)) ∧
    (∀ (mr : Nat) (repo : RepoData) (rc : Nat) (bt now : Int)
        (rest : List ApiResponse), rc < mr →
      updateLoop mr repo rc bt now (ApiResponse.unexpected :: rest) =
        addAttempt (bt * 2) (updateLoop mr repo (rc + 1) (bt * 2) (now + bt * 2) rest)) ∧
    ∀ (mr : Nat) (repo : RepoData) (now : Int) (rs : List ApiResponse),
      (∀ r ∈ rs, retryable r = true) → rs.length ≤ mr →
      (update_repo_stats repo now rs mr).sleeps =
        (List.range rs.length).map (fun i => (2 : Int) ^ (i + 1)) ∧
      (update_repo_stats repo now rs mr).consumed = rs.length := by
  refine ⟨?_, ?_, ?_⟩
  · intro mr repo rc bt now status rest h hs
    exact updateLoop_githubError repo bt now rest h hs
  · intro mr repo rc bt now rest h
    exact updateLoop_unexpected repo bt now rest h
  · intro mr repo now rs hall hlen
    unfold update_repo_stats
    obtain ⟨now2, h⟩ := updateLoop_retryable_run mr repo rs hall 0 1 now [] (by omega)
    rw [List.append_nil] at h
    rw [h]
    by_cases hc : 0 + rs.length < mr
    · rw [updateLoop_nil_lt repo _ now2 hc]
      simp [addAttempts]
    · rw [updateLoop_nil_ge repo _ now2 hc]
      simp [addAttempts]

theorem update_backoff_doubles_before_sleep_witness :
    (update_repo_stats ⟨0, 0⟩ 0
        [ApiResponse.githubError 500, ApiResponse.unexpected] 5).sleeps = [2, 4] ∧
    (update_repo_stats ⟨0, 0⟩ 0
        [ApiResponse.githubError 500, ApiResponse.unexpected] 5).consumed = 2 := by
  have h := update_backoff_doubles_before_sleep.2.2 5 ⟨0, 0⟩ 0
    [ApiResponse.githubError 500, ApiResponse.unexpected] (by decide) (by decide)
  exact ⟨h.1.trans (by decide), h.2⟩

/-! ## Updater claims: bounded attempts without rate limiting -/

theorem updateLoop_no_ratelimit_spec (mr : Nat) (repo : RepoData) :
    ∀ (rs : List ApiResponse) (rc : Nat) (bt now : Int),
      (∀ r ∈ rs, isRateLimited r = false) → mr ≤ rc + rs.length →
      (updateLoop mr repo rc bt now rs).consumed ≤ mr - rc ∧
      ((updateLoop mr repo rc bt now rs).outcome = Outcome.success ∨
        (updateLoop mr repo rc bt now rs).outcome = Outcome.failure) ∧
      ((updateLoop mr repo rc bt now rs).outcome = Outcome.success ↔
        ∃ k, rc + k < mr ∧ (∀ r ∈ rs.take k, retryable r = true) ∧
          ∃ s f, rs[k]? = some (ApiResponse.success s f)) ∧
      ∀ k, rc + k < mr → (∀ r ∈ rs.take k, retryable r = true) →
        ∀ s f, rs[k]? = some (ApiResponse.success s f) →
          (updateLoop mr repo rc bt now rs).repo = ⟨s, f⟩ ∧
          (updateLoop mr repo rc bt now rs).consumed = k + 1 := by
  intro rs
  induction rs with
  | nil =>
    intro rc bt now _ hlen
    rw [updateLoop_nil_ge repo bt now (by simp at hlen; omega)]
    refine ⟨by simp, Or.inr rfl, ?_, ?_⟩
    · constructor
      · intro hcon
        exact Outcome.noConfusion hcon
      · rintro ⟨k, _, _, s, f, hk⟩
        simp at hk
    · intro k _ _ s f hk
      simp at hk
  | cons r rs ih =>
    intro rc bt now hall hlen
    by_cases hrc : rc < mr
    · cases r with
      | success s0 f0 =>
        rw [updateLoop_success repo bt now s0 f0 rs hrc]
        refine ⟨by simp; omega, Or.inl rfl, ?_, ?_⟩
        · constructor
          · intro _
            exact ⟨0, by omega, by simp, s0, f0, by simp⟩
          · intro _
            rfl
        · intro k hk htake s f hget
          cases k with
          | zero =>
            simp at hget
            constructor
            · show RepoData.mk s0 f0 = ⟨s, f⟩
              rw [hget.1, hget.2]
            · rfl
          | succ k' =>
            have hx := htake (ApiResponse.success s0 f0)
              (by rw [List.take_succ_cons]; exact List.mem_cons_self _ _)
            simp [retryable] at hx
      | rateLimited t =>
        have hcon := hall (ApiResponse.rateLimited t) (List.mem_cons_self _ _)
        simp [isRateLimited] at hcon
      | githubError status =>
        by_cases hs4 : status = 404
        · subst hs4
          rw [updateLoop_notFound repo bt now rs hrc]
          refine ⟨by simp; omega, Or.inr rfl, ?_, ?_⟩
          · constructor
            · intro hcon
              exact Outcome.noConfusion hcon
            · rintro ⟨k, hk, htake, s, f, hget⟩
              cases k with
              | zero => simp at hget
              | succ k' =>
                have hx := htake (ApiResponse.githubError 404)
                  (by rw [List.take_succ_cons]; exact List.mem_cons_self _ _)
                simp [retryable] at hx
          · intro k hk htake s f hget
            cases k with
            | zero => simp at hget
            | succ k' =>
              have hx := htake (ApiResponse.githubError 404)
                (by rw [List.take_succ_cons]; exact List.mem_cons_self _ _)
              simp [retryable] at hx
        · rw [updateLoop_githubError repo bt now rs hrc hs4]
          have hall' : ∀ x ∈ rs, isRateLimited x = false :=
            fun x hx => hall x (List.mem_cons_of_mem _ hx)
          have hlen' : mr ≤ (rc + 1) + rs.length := by
            simp only [List.length_cons] at hlen
            omega
          obtain ⟨ih1, ih2, ih3, ih4⟩ := ih (rc + 1) (bt * 2) (now + bt * 2) hall' hlen'
          have hretr : retryable (ApiResponse.githubError status) = true := by
            simp [retryable, hs4]
          refine ⟨?_, ?_, ?_, ?_⟩
          · rw [addAttempt_consumed]
            omega
          · rw [addAttempt_outcome]
            exact ih2
          · rw [addAttempt_outcome, ih3]
            constructor
            · rintro ⟨k', hk', htake', s, f, hget'⟩
              refine ⟨k' + 1, by omega, ?_, s, f, ?_⟩
              · intro x hx
                rw [List.take_succ_cons] at hx
                rcases List.mem_cons.mp hx with rfl | hx
                · exact hretr
                · exact htake' x hx
              · simpa using hget'
            · rintro ⟨k, hk, htake, s, f, hget⟩
              cases k with
              | zero => simp at hget
              | succ k' =>
                refine ⟨k', by omega, ?_, s, f, ?_⟩
                · intro x hx
                  exact htake x
                    (by rw [List.take_succ_cons]; exact List.mem_cons_of_mem _ hx)
                · simpa using hget
          · intro k hk htake s f hget
            cases k with
            | zero => simp at hget
            | succ k' =>
              have h4 := ih4 k' (by omega)
                (fun x hx => htake x
                  (by rw [List.take_succ_cons]; exact List.mem_cons_of_mem _ hx))
                s f (by simpa using hget)
              refine ⟨?_, ?_⟩
              · rw [addAttempt_repo]
                exact h4.1
              · rw [addAttempt_consumed, h4.2]
      | unexpected =>
        rw [updateLoop_unexpected repo bt now rs hrc]
        have hall' : ∀ x ∈ rs, isRateLimited x = false :=
          fun x hx => hall x (List.mem_cons_of_mem _ hx)
        have hlen' : mr ≤ (rc + 1) + rs.length := by
          simp only [List.length_cons] at hlen
          omega
        obtain ⟨ih1, ih2, ih3, ih4⟩ := ih (rc + 1) (bt * 2) (now + bt * 2) hall' hlen'
        have hretr : retryable ApiResponse.unexpected = true := rfl
        refine ⟨?_, ?_, ?_, ?_⟩
        · rw [addAttempt_consumed]
          omega
        · rw [addAttempt_outcome]
          exact ih2
        · rw [addAttempt_outcome, ih3]
          constructor
          · rintro ⟨k', hk', htake', s, f, hget'⟩
            refine ⟨k' + 1, by omega, ?_, s, f, ?_⟩
            · intro x hx
              rw [List.take_succ_cons] at hx
              rcases List.mem_cons.mp hx with rfl | hx
              · exact hretr
              · exact htake' x hx
            · simpa using hget'
          · rintro ⟨k, hk, htake, s, f, hget⟩
            cases k with
            | zero => simp at hget
            | succ k' =>
              refine ⟨k', by omega, ?_, s, f, ?_⟩
              · intro x hx
                exact htake x
                  (by rw [List.take_succ_cons]; exact List.mem_cons_of_mem _ hx)
              · simpa using hget
        · intro k hk htake s f hget
          cases k with
          | zero => simp at hget
          | succ k' =>
            have h4 := ih4 k' (by omega)
              (fun x hx => htake x
                (by rw [List.take_succ_cons]; exact List.mem_cons_of_mem _ hx))
              s f (by simpa using hget)
            refine ⟨?_, ?_⟩
            · rw [addAttempt_repo]
              exact h4.1
            · rw [addAttempt_consumed, h4.2]
    · rw [updateLoop_stop repo bt now r rs hrc]
      refine ⟨by simp, Or.inr rfl, ?_, ?_⟩
      · constructor
        · intro hcon
          exact Outcome.noConfusion hcon
        · rintro ⟨k, hk, _, _⟩
          omega
      · intro k hk
        exact absurd hk (by omega)

/-- Claim C9: for a response oracle with no rate-limit response that is long
enough to answer every permitted attempt, `update_repo_stats` consumes at
most `max_retries` responses (the Python default is 5), terminates with a
success or failure result, succeeds exactly when some attempt `k` below the
maximum is a successful fetch preceded only by retryable errors, and in
that case returns the fetched counts after exactly `k + 1` attempts. -/
theorem update_terminates_within_max_attempts (mr : Nat) (repo : RepoData) (now : Int)
    (rs : List ApiResponse) (hnr : ∀ r ∈ rs, isRateLimited r = false)
    (hlen : mr ≤ rs.length) :
    (update_repo_stats repo now rs mr).consumed ≤ mr ∧
    ((update_repo_stats repo now rs mr).outcome = Outcome.success ∨
      (update_repo_stats repo now rs mr).outcome = Outcome.failure) ∧
    ((update_repo_stats repo now rs mr).outcome = Outcome.success ↔
      ∃ k, k < mr ∧ (∀ r ∈ rs.take k, retryable r = true) ∧
        ∃ s f, rs[k]? = some (ApiResponse.success s f)) ∧
    ∀ k, k < mr → (∀ r ∈ rs.take k, retryable r = true) →
      ∀ s f, rs[k]? = some (ApiResponse.success s f) →
        (update_repo_stats repo now rs mr).repo = ⟨s, f⟩ ∧
        (update_repo_stats repo now rs mr).consumed = k + 1 := by
  have h := updateLoop_no_ratelimit_spec mr repo rs 0 1 now hnr (by omega)
  unfold update_repo_stats
  simpa using h

theorem update_terminates_within_max_attempts_witness :
    (update_repo_stats ⟨0, 0⟩ 0
        [ApiResponse.githubError 500, ApiResponse.success 3 4, ApiResponse.unexpected,
          ApiResponse.unexpected, ApiResponse.unexpected] 5).consumed ≤ 5 ∧
    (update_repo_stats ⟨0, 0⟩ 0
        [ApiResponse.githubError 500, ApiResponse.success 3 4, ApiResponse.unexpected,
          ApiResponse.unexpected, ApiResponse.unexpected] 5).repo = ⟨3, 4⟩ := by
  have h := update_terminates_within_max_attempts 5 ⟨0, 0⟩ 0
    [ApiResponse.githubError 500, ApiResponse.success 3 4, ApiResponse.unexpected,
      ApiResponse.unexpected, ApiResponse.unexpected] (by decide) (by decide)
  exact ⟨h.1, (h.2.2.2 1 (by decide) (by decide) 3 4 (by decide)).1⟩

/-! ## Main-loop claims -/

theorem mainStep_eq (now : Int) (acc : List RepoEntry × Nat)
    (item : RepoEntry × List ApiResponse) :
    mainStep now acc item =
      (acc.1 ++ [(processRepo now item.1 item.2).1],
        acc.2 + (if (processRepo now item.1 item.2).2 = EntryOutcome.updated
          then 1 else 0)) := rfl

theorem mainLoop_go :
    ∀ (items : List (RepoEntry × List ApiResponse)) (now : Int)
      (acc : List RepoEntry × Nat),
      items.foldl (mainStep now) acc =
        (acc.1 ++ (mainLoop now items).1, acc.2 + (mainLoop now items).2) := by
  intro items
  induction items with
  | nil =>
    intro now acc
    show acc = (acc.1 ++ (mainLoop now []).1, acc.2 + (mainLoop now []).2)
    simp [mainLoop]
  | cons it items ih =>
    intro now acc
    rw [List.foldl_cons, mainStep_eq, ih]
    have hRHS : mainLoop now (it :: items) =
        ((([] : List RepoEntry) ++ [(processRepo now it.1 it.2).1]) ++
            (mainLoop now items).1,
          (0 + (if (processRepo now it.1 it.2).2 = EntryOutcome.updated
            then 1 else 0)) + (mainLoop now items).2) := by
      show (it :: items).foldl (mainStep now) ([], 0) = _
      rw [List.foldl_cons, mainStep_eq, ih]
    rw [hRHS]
    simp [List.append_assoc, Nat.add_assoc]

theorem mainLoop_length (now : Int) :
    ∀ items : List (RepoEntry × List ApiResponse),
      (mainLoop now items).1.length = items.length := by
  intro items
  induction items with
  | nil => rfl
  | cons it items ih =>
    show ((it :: items).foldl (mainStep now) ([], 0)).1.length = items.length + 1
    rw [List.foldl_cons, mainStep_eq, mainLoop_go]
    simp [ih]

theorem processRepo_raises {repo : RepoEntry} (h : entryRaises repo = true)
    (now : Int) (oracle : List ApiResponse) :
    processRepo now repo oracle = (repo, EntryOutcome.exceptionLogged) := by
  unfold processRepo
  unfold entryRaises at h
  cases hl : repo.links with
  | none => rfl
  | some links =>
    rw [hl] at h
    cases hf : links.find? (fun l => containsSub l.url "github.com") with
    | none =>
      simp only [hf] at h
      exact Bool.noConfusion h
    | some l =>
      simp only [hf] at h
      have hsw : l.url.startsWith "https://github.com/" = false := by
        simpa using h
      have herr : extract_repo_path l.url =
          Except.error ("Invalid GitHub URL: " ++ l.url) := by
        unfold extract_repo_path
        simp [hsw]
      simp only [hf, herr]

/-- Claim C10: an exception raised while processing a single repository
record of the main loop (a missing or malformed `links` field, or a GitHub
URL that does not start with `https://github.com/`) is caught by the
per-repository handler and logged: the record is left unchanged, every other
record is processed exactly as it would be without the bad one, and the full
data set (all records, in order) is still produced for the final write. -/
theorem main_loop_survives_bad_entry (now : Int)
    (pre post : List (RepoEntry × List ApiResponse)) (bad : RepoEntry)
    (ob : List ApiResponse) (hbad : entryRaises bad = true) :
    processRepo now bad ob = (bad, EntryOutcome.exceptionLogged) ∧
    mainLoop now (pre ++ (bad, ob) :: post) =
      ((mainLoop now pre).1 ++ bad :: (mainLoop now post).1,
        (mainLoop now pre).2 + (mainLoop now post).2) ∧
    (mainLoop now (pre ++ (bad, ob) :: post)).1.length =
      pre.length + 1 + post.length := by
  have hraise := processRepo_raises hbad now ob
  have hmain : mainLoop now (pre ++ (bad, ob) :: post) =
      ((mainLoop now pre).1 ++ bad :: (mainLoop now post).1,
        (mainLoop now pre).2 + (mainLoop now post).2) := by
    show (pre ++ (bad, ob) :: post).foldl (mainStep now) ([], 0) = _
    rw [List.foldl_append, List.foldl_cons, mainStep_eq]
    show post.foldl (mainStep now)
        ((pre.foldl (mainStep now) ([], 0)).1 ++ [(processRepo now bad ob).1],
          (pre.foldl (mainStep now) ([], 0)).2 +
            (if (processRepo now bad ob).2 = EntryOutcome.updated then 1 else 0)) = _
    rw [hraise, mainLoop_go]
    show ((mainLoop now pre).1 ++ [bad] ++ (mainLoop now post).1,
        (mainLoop now pre).2 + 0 + (mainLoop now post).2) = _
    simp [List.append_assoc]
  refine ⟨hraise, hmain, ?_⟩
  rw [hmain]
  simp [mainLoop_length]
  omega

theorem main_loop_survives_bad_entry_witness :
    processRepo 0 ⟨"x", none, 1, 2⟩ [] = (⟨"x", none, 1, 2⟩, EntryOutcome.exceptionLogged) ∧
    mainLoop 0 (([] : List (RepoEntry × List ApiResponse)) ++
        (RepoEntry.mk "x" none 1 2, ([] : List ApiResponse)) ::
          ([] : List (RepoEntry × List ApiResponse))) =
      ((mainLoop 0 ([] : List (RepoEntry × List ApiResponse))).1 ++
          RepoEntry.mk "x" none 1 2 ::
            (mainLoop 0 ([] : List (RepoEntry × List ApiResponse))).1,
        (mainLoop 0 ([] : List (RepoEntry × List ApiResponse))).2 +
          (mainLoop 0 ([] : List (RepoEntry × List ApiResponse))).2) ∧
    (mainLoop 0 (([] : List (RepoEntry × List ApiResponse)) ++
        (RepoEntry.mk "x" none 1 2, ([] : List ApiResponse)) ::
          ([] : List (RepoEntry × List ApiResponse)))).1.length =
      ([] : List (RepoEntry × List ApiResponse)).length + 1 +
        ([] : List (RepoEntry × List ApiResponse)).length :=
  main_loop_survives_bad_entry 0 [] [] ⟨"x", none, 1, 2⟩ [] rfl
